import Mathlib

/-!
Verification of the rpt path tracer (src/vec3.rs, src/ray.rs, src/math.rs,
src/scene.rs, src/camera.rs, src/main.rs).

Modelling conventions:
* the Rust `f32` scalar is idealized as the real numbers `ℝ` (exact
  arithmetic; `f32::sqrt`, `sin`, `acos`, `atan2`, `tan` become the
  corresponding real functions);
* the thread-local random number generator `ThreadRng` is modelled as an
  infinite stream `ℕ → ℝ` of draws together with a cursor: a function that
  consumes randomness takes the stream and the current cursor position and
  returns the new position alongside its result;
* the unbounded rejection-sampling loops of the source are modelled with an
  explicit fuel parameter and an `Option` result (`none` = the loop did not
  accept a candidate within `fuel` iterations);
* `f32::MAX`, used by `Scene::hit` as the initial "smallest distance so far"
  sentinel, is idealized as "no hit seen yet" (the `none` of an
  `Option Hit` accumulator).
-/

namespace RPT

/-- The 3-component vector of src/vec3.rs, with `f32` components read as `ℝ`. -/
@[ext]
structure Vec3 where
  x : ℝ
  y : ℝ
  z : ℝ

def Vec3.add (a b : Vec3) : Vec3 := ⟨a.x + b.x, a.y + b.y, a.z + b.z⟩

def Vec3.sub (a b : Vec3) : Vec3 := ⟨a.x - b.x, a.y - b.y, a.z - b.z⟩

def Vec3.neg (a : Vec3) : Vec3 := ⟨-a.x, -a.y, -a.z⟩

/-- Scalar multiplication `s * &v` of src/vec3.rs. -/
def Vec3.smul (s : ℝ) (a : Vec3) : Vec3 := ⟨s * a.x, s * a.y, s * a.z⟩

instance : Add Vec3 := ⟨Vec3.add⟩

instance : Sub Vec3 := ⟨Vec3.sub⟩

instance : Neg Vec3 := ⟨Vec3.neg⟩

instance : SMul ℝ Vec3 := ⟨Vec3.smul⟩

theorem Vec3.add_def (a b : Vec3) : a + b = ⟨a.x + b.x, a.y + b.y, a.z + b.z⟩ := rfl

theorem Vec3.sub_def (a b : Vec3) : a - b = ⟨a.x - b.x, a.y - b.y, a.z - b.z⟩ := rfl

theorem Vec3.neg_def (a : Vec3) : -a = ⟨-a.x, -a.y, -a.z⟩ := rfl

theorem Vec3.smul_def (s : ℝ) (a : Vec3) : s • a = ⟨s * a.x, s * a.y, s * a.z⟩ := rfl

/-- `dot` of src/vec3.rs. -/
def dot (a b : Vec3) : ℝ := a.x * b.x + a.y * b.y + a.z * b.z

/-- `cross` of src/vec3.rs. -/
def cross (a b : Vec3) : Vec3 :=
  ⟨a.y * b.z - a.z * b.y, a.z * b.x - a.x * b.z, a.x * b.y - a.y * b.x⟩

/-- `length_squared` of src/vec3.rs. -/
def length_squared (v : Vec3) : ℝ := dot v v

/-- `length` of src/vec3.rs. -/
noncomputable def length (v : Vec3) : ℝ := Real.sqrt (length_squared v)

/-- `normalize` of src/vec3.rs (also the in-place `Vec3::normalize`): scale by
the reciprocal length. On the zero vector the Rust code divides by zero; in
the real-number idealization `1 / 0 = 0`, so `normalize 0 = 0`. -/
noncomputable def normalize (v : Vec3) : Vec3 := (1 / length v) • v

/-- `reflect` of src/vec3.rs, exactly as written there. -/
def reflect (v n : Vec3) : Vec3 :=
  let d := -v.x * n.x + -v.y * n.y + -v.z * n.z
  ⟨-v.x + 2 * (d * n.x + v.x), -v.y + 2 * (d * n.y + v.y), -v.z + 2 * (d * n.z + v.z)⟩

/-- The local `cos_theta` of `refract` in src/vec3.rs: computed from the
normalized incident direction, clamped above by `1.0`. -/
noncomputable def refractCos (v n : Vec3) : ℝ :=
  let u := normalize v
  min (-u.x * n.x - u.y * n.y - u.z * n.z) 1

/-- The local `sin_theta` of `refract` in src/vec3.rs. -/
noncomputable def refractSin (v n : Vec3) : ℝ :=
  Real.sqrt (1 - refractCos v n * refractCos v n)

/-- The refracted direction `r_out_perp + r_out_parallel` built by the `Some`
branch of `refract` in src/vec3.rs (no renormalization). -/
noncomputable def refractOut (v n : Vec3) (niOverNt : ℝ) : Vec3 :=
  let u := normalize v
  let c := refractCos v n
  let rOutPerp : Vec3 :=
    ⟨niOverNt * (u.x + c * n.x), niOverNt * (u.y + c * n.y), niOverNt * (u.z + c * n.z)⟩
  let rOutParallel : Vec3 := (-Real.sqrt |1 - length_squared rOutPerp|) • n
  rOutPerp + rOutParallel

/-- `refract` of src/vec3.rs: `None` on total internal reflection
(`ni_over_nt * sin_theta > 1.0`), otherwise the unnormalized refracted
direction. -/
noncomputable def refract (v n : Vec3) (niOverNt : ℝ) : Option Vec3 :=
  if niOverNt * refractSin v n > 1 then none else some (refractOut v n niOverNt)

/-- The ray of src/ray.rs: origin and direction. -/
structure Ray where
  o : Vec3
  d : Vec3

/-- `Ray::point_at` of src/ray.rs. -/
def Ray.point_at (r : Ray) (t : ℝ) : Vec3 :=
  ⟨r.o.x + t * r.d.x, r.o.y + t * r.d.y, r.o.z + t * r.d.z⟩

/-- `Roots` of src/math.rs. -/
inductive Roots where
  | Two (r1 r2 : ℝ)
  | One (r : ℝ)
  | None

/-- `quadratic` of src/math.rs: roots of `a*x^2 + b*x + c = 0`. -/
noncomputable def quadratic (a b c : ℝ) : Roots :=
  let discrim := b * b - 4 * a * c
  if discrim > 0 then
    Roots.Two (0.5 * (-b + Real.sqrt discrim) / a) (0.5 * (-b - Real.sqrt discrim) / a)
  else if discrim = 0 then Roots.One (-0.5 * b / a)
  else Roots.None

/-- `Texture` of src/scene.rs. -/
inductive Texture where
  | None
  | Checkered (color1 color2 : Vec3) (scale : ℝ)

/-- `Material` of src/scene.rs. -/
inductive Material where
  | Diffuse (albedo : Vec3) (texture : Texture)
  | Metal (albedo : Vec3) (roughness : ℝ)
  | Light (color : Vec3)
  | Glass (attenuation : Vec3) (ior : ℝ)
  | Normal

/-- `Hit` of src/scene.rs: point, unit normal, parametric distance, surface
parameterization, and a copy of the hit material. -/
structure Hit where
  p : Vec3
  n : Vec3
  t : ℝ
  uv : ℝ × ℝ
  m : Material

/-- `Sphere` of src/scene.rs: center, radius, material. -/
structure Sphere where
  c : Vec3
  r : ℝ
  m : Material

/-- Rust's `f32::atan2(y, x)` (standard two-argument arctangent), used by
`get_sphere_uv`. -/
noncomputable def atan2 (y x : ℝ) : ℝ :=
  if 0 < x then Real.arctan (y / x)
  else if x < 0 then
    (if 0 ≤ y then Real.arctan (y / x) + Real.pi else Real.arctan (y / x) - Real.pi)
  else if 0 < y then Real.pi / 2
  else if y < 0 then -(Real.pi / 2)
  else 0

/-- `get_sphere_uv` of src/scene.rs: spherical coordinates of the unit
normal. -/
noncomputable def get_sphere_uv (p : Vec3) : ℝ × ℝ :=
  let theta := Real.arccos (-p.y)
  let phi := atan2 (-p.z) p.x + Real.pi
  (phi / (2 * Real.pi), theta / Real.pi)

/-- The local `oc = ray.o - sphere.c` of `Sphere::hit` in src/scene.rs. -/
def sphereOc (s : Sphere) (ray : Ray) : Vec3 := ray.o - s.c

/-- The quadratic coefficient `a` of `Sphere::hit`. -/
def sphereA (s : Sphere) (ray : Ray) : ℝ := length_squared ray.d

/-- The quadratic coefficient `b` of `Sphere::hit`. -/
def sphereB (s : Sphere) (ray : Ray) : ℝ := 2 * dot (sphereOc s ray) ray.d

/-- The quadratic coefficient `c` of `Sphere::hit`. -/
def sphereC (s : Sphere) (ray : Ray) : ℝ := length_squared (sphereOc s ray) - s.r * s.r

/-- The local `discriminant = b*b - 4*a*c` of `Sphere::hit`. -/
def sphereDisc (s : Sphere) (ray : Ray) : ℝ :=
  sphereB s ray * sphereB s ray - 4 * sphereA s ray * sphereC s ray

/-- The root `t1 = (-b - sqrt(discriminant)) / (2*a)` of `Sphere::hit`. -/
noncomputable def sphereT1 (s : Sphere) (ray : Ray) : ℝ :=
  (-sphereB s ray - Real.sqrt (sphereDisc s ray)) / (2 * sphereA s ray)

/-- The root `t2 = (-b + sqrt(discriminant)) / (2*a)` of `Sphere::hit`. -/
noncomputable def sphereT2 (s : Sphere) (ray : Ray) : ℝ :=
  (-sphereB s ray + Real.sqrt (sphereDisc s ray)) / (2 * sphereA s ray)

/-- The hit record `Sphere::hit` builds once it accepts a root `t`. -/
noncomputable def sphereHitAt (s : Sphere) (ray : Ray) (t : ℝ) : Hit :=
  let p := ray.point_at t
  let n := normalize (p - s.c)
  ⟨p, n, t, get_sphere_uv n, s.m⟩

/-- `Sphere::hit` of src/scene.rs: no hit unless the discriminant is strictly
positive; then the smaller root `t1` if positive, else the larger root `t2`
if positive, else no hit. -/
noncomputable def Sphere.hit (s : Sphere) (ray : Ray) : Option Hit :=
  if 0 < sphereDisc s ray then
    if 0 < sphereT1 s ray then some (sphereHitAt s ray (sphereT1 s ray))
    else if 0 < sphereT2 s ray then some (sphereHitAt s ray (sphereT2 s ray))
    else none
  else none

/-- The loop body of `Scene::hit` in src/scene.rs, threading the closest hit
seen so far (the `smallest_t = f32::MAX` sentinel of the source is idealized
as the initial `none`, and `smallest_t` itself always equals the `t` of the
accumulated closest hit). -/
noncomputable def sceneHitStep (ray : Ray) (best : Option Hit) (s : Sphere) : Option Hit :=
  match Sphere.hit s ray, best with
  | some h, none => some h
  | some h, some b => if h.t < b.t then some h else some b
  | none, b => b

/-- `Scene::hit` of src/scene.rs: linear scan over all spheres keeping the
hit with the smallest `t` (strict comparison, so the first of equally near
hits is kept). -/
noncomputable def Scene.hit (spheres : List Sphere) (ray : Ray) : Option Hit :=
  spheres.foldl (sceneHitStep ray) none

/-- `MAX_DEPTH` of src/main.rs. -/
def MAX_DEPTH : ℕ := 8

/-- `IMAGE_WIDTH` of src/main.rs. -/
def IMAGE_WIDTH : ℕ := 512

/-- `IMAGE_HEIGHT` of src/main.rs. -/
def IMAGE_HEIGHT : ℕ := 512

/-- The rejection-sampling loop shared by the diffuse-scatter and metal-fuzz
branches of `trace_ray` in src/main.rs: draw uniform triples, map them to
`[-1,1]^3`, accept when the squared length is below `bound` (`1.0` for the
diffuse scatter, `roughness` for the metal fuzz). `pos` is the rng cursor;
three draws are consumed per iteration. -/
noncomputable def sampleBall (bound : ℝ) (rng : ℕ → ℝ) : ℕ → ℕ → Option (Vec3 × ℕ)
  | 0, _ => none
  | fuel + 1, pos =>
    let r : Vec3 := ⟨2 * rng pos - 1, 2 * rng (pos + 1) - 1, 2 * rng (pos + 2) - 1⟩
    if length_squared r < bound then some (r, pos + 3) else sampleBall bound rng fuel (pos + 3)

/-- The epsilon offset `new_ray.o += 0.001 * new_ray.d` (componentwise) every
scattering branch of `trace_ray` applies before recursing. -/
def nudge (r : Ray) : Ray :=
  ⟨⟨r.o.x + 0.001 * r.d.x, r.o.y + 0.001 * r.d.y, r.o.z + 0.001 * r.d.z⟩, r.d⟩

/-- The checkerboard albedo selection of the diffuse branch of `trace_ray`. -/
noncomputable def textureAlbedo (albedo : Vec3) (tex : Texture) (uv : ℝ × ℝ) : Vec3 :=
  match tex with
  | Texture.Checkered color1 color2 scale =>
    if Real.sin (scale * uv.1) * Real.sin (10 * scale * uv.2) > 0 then color1 else color2
  | Texture.None => albedo

/-- Channel-wise color modulation, the `Vec3::new(albedo.x * c.x, ...)` at the
end of the scattering branches of `trace_ray`. -/
def mul3 (a b : Vec3) : Vec3 := ⟨a.x * b.x, a.y * b.y, a.z * b.z⟩

/-- The background gradient of `trace_ray`: lerp on the normalized
direction's Y component between `(1,1,1)` at `t = 0` and `(0.5,0.7,0.9)` at
`t = 1`. -/
noncomputable def background (ray : Ray) : Vec3 :=
  let normalized := normalize ray.d
  let t := 0.5 * (normalized.y + 1)
  ⟨(1 - t) * 1 + t * 0.5, (1 - t) * 1 + t * 0.7, (1 - t) * 1 + t * 0.9⟩

/-- `trace_ray` of src/main.rs. The result pairs the radiance with the new
rng cursor; `fuel` bounds the rejection-sampling loops (`none` = a loop was
cut off, which the Rust code would instead keep running). Recursion is on
the distance of `depth` to `MAX_DEPTH`, exactly as in the source. -/
noncomputable def trace (spheres : List Sphere) (rng : ℕ → ℝ) (fuel : ℕ) :
    Ray → ℕ → ℕ → Option (Vec3 × ℕ)
  | ray, pos, depth =>
    if _h : MAX_DEPTH ≤ depth then some (⟨0, 0, 0⟩, pos)
    else
      match Scene.hit spheres ray with
      | none => some (background ray, pos)
      | some hit =>
        match hit.m with
        | Material.Diffuse albedo texture =>
          match sampleBall 1 rng fuel pos with
          | none => none
          | some (rand, pos1) =>
            let target := normalize (hit.n + rand)
            let newRay := nudge ⟨hit.p, target⟩
            match trace spheres rng fuel newRay pos1 (depth + 1) with
            | none => none
            | some (c, pos2) => some (mul3 (textureAlbedo albedo texture hit.uv) c, pos2)
        | Material.Metal albedo roughness =>
          match
            (if 0 < roughness then
              (sampleBall roughness rng fuel pos).map fun rp => (reflect ray.d hit.n + rp.1, rp.2)
            else some (reflect ray.d hit.n, pos)) with
          | none => none
          | some (target0, pos1) =>
            let newRay := nudge ⟨hit.p, normalize target0⟩
            match trace spheres rng fuel newRay pos1 (depth + 1) with
            | none => none
            | some (c, pos2) => some (mul3 albedo c, pos2)
        | Material.Glass attenuation ior =>
          let rNormal : ℝ × Vec3 :=
            if dot ray.d hit.n < 0 then (1 / ior, hit.n) else (ior, -hit.n)
          let rr := rNormal.1
          let normal := rNormal.2
          let v := normalize (-ray.d)
          let cosTheta := min (v.x * normal.x + v.y * normal.y + v.z * normal.z) 1
          let r0 := ((1 - rr) / (1 + rr)) * ((1 - rr) / (1 + rr))
          let schlick := r0 + (1 - r0) * (1 - cosTheta) ^ 5
          let rand := rng pos
          let dir :=
            match refract ray.d normal rr with
            | some refracted =>
              if schlick > rand then normalize (reflect ray.d normal) else normalize refracted
            | none => normalize (reflect ray.d normal)
          let newRay := nudge ⟨hit.p, dir⟩
          match trace spheres rng fuel newRay (pos + 1) (depth + 1) with
          | none => none
          | some (c, pos2) => some (mul3 attenuation c, pos2)
        | Material.Light color => some (color, pos)
        | Material.Normal =>
          some (⟨0.5 * (hit.n.x + 1), 0.5 * (hit.n.y + 1), 0.5 * (hit.n.z + 1)⟩, pos)
  termination_by ray pos depth => MAX_DEPTH - depth
  decreasing_by all_goals omega

/-- `PerspectiveCamera` of src/camera.rs. -/
structure PerspectiveCamera where
  origin : Vec3
  target : Vec3
  u_axis : Vec3
  v_axis : Vec3
  viewport_width : ℝ
  viewport_height : ℝ
  focal_distance : ℝ
  lens_radius : ℝ

/-- `PerspectiveCamera::look_at` of src/camera.rs. -/
noncomputable def look_at (eye target up : Vec3) (fov aspect focal_distance lens_radius : ℝ) :
    PerspectiveCamera :=
  let dir0 := target - eye
  let theta := fov / 180 * Real.pi
  let h := Real.tan (0.5 * theta)
  let viewport_width := 2 * h * length dir0
  let viewport_height := aspect * viewport_width
  let dir := normalize dir0
  let u_axis := normalize (cross up dir)
  let v_axis := cross dir u_axis
  ⟨eye, target, u_axis, v_axis, viewport_width, viewport_height, focal_distance, lens_radius⟩

/-- The lens rejection-sampling loop of `PerspectiveCamera::generate_ray`:
draw uniform pairs until `u*u + v*v < 1`; two draws are consumed per
iteration. -/
noncomputable def sampleDisk (rng : ℕ → ℝ) : ℕ → ℕ → Option (ℝ × ℝ × ℕ)
  | 0, _ => none
  | fuel + 1, pos =>
    let u := rng pos
    let v := rng (pos + 1)
    if u * u + v * v < 1 then some (u, v, pos + 2) else sampleDisk rng fuel (pos + 2)

/-- `PerspectiveCamera::generate_ray` of src/camera.rs: build the viewport
ray, compute the sharp-focus point at `focal_distance`, perturb the origin
within the lens disk, and recompute the (normalized) direction toward the
focus point. -/
noncomputable def generate_ray (cam : PerspectiveCamera) (u v : ℝ) (rng : ℕ → ℝ)
    (fuel pos : ℕ) : Option (Ray × ℕ) :=
  let target := cam.target + (u * cam.viewport_width) • cam.u_axis
    + (v * cam.viewport_height) • cam.v_axis
  let dir := normalize (target - cam.origin)
  let ray : Ray := ⟨cam.origin, dir⟩
  let focus := ray.point_at cam.focal_distance
  match sampleDisk rng fuel pos with
  | none => none
  | some (du, dv, pos1) =>
    let o := ray.o + (du * cam.lens_radius) • cam.u_axis + (dv * cam.lens_radius) • cam.v_axis
    some (⟨o, normalize (focus - o)⟩, pos1)

/-- Modelled from the spec: the pinhole-camera ray for `(u,v)` — origin at
the eye, direction toward the viewport point offset by `(u,v)` in the image
plane basis, normalized (the ray `generate_ray` builds before the lens
perturbation). -/
noncomputable def pinholeRay (cam : PerspectiveCamera) (u v : ℝ) : Ray :=
  let target := cam.target + (u * cam.viewport_width) • cam.u_axis
    + (v * cam.viewport_height) • cam.v_axis
  ⟨cam.origin, normalize (target - cam.origin)⟩

/-- `Tile` of src/main.rs. -/
structure Tile where
  min_x : ℕ
  min_y : ℕ
  max_x : ℕ
  max_y : ℕ

/-- Rust's saturating `f32 as u8` cast applied to a real value: truncate
toward zero, clamp into `[0, 255]`. -/
noncomputable def rustCastU8 (x : ℝ) : ℕ := (min 255 ⌊x⌋).toNat

/-- The per-channel byte conversion of `render_tile` in src/main.rs:
`(255.99 * channel.sqrt()) as u8`. -/
noncomputable def byteOfChannel (c : ℝ) : ℕ := rustCastU8 (255.99 * Real.sqrt c)

/-- Modelled from the spec: the byte conversion as C9 words it —
`round(255.99 × sqrt(averaged linear radiance))` reduced modulo 256. -/
noncomputable def specByteOfChannel (c : ℝ) : ℕ :=
  (round (255.99 * Real.sqrt c)).toNat % 256

/-- The four bytes `render_tile` writes for one pixel (R, G, B, alpha 255). -/
noncomputable def pixelBytes (c : Vec3) : List ℕ :=
  [byteOfChannel c.x, byteOfChannel c.y, byteOfChannel c.z, 255]

/-- `render_tile` of src/main.rs, with the per-pixel Monte-Carlo sampling
loop (camera rays, `trace`, averaging — all rng-dependent) abstracted into
`pixel : x → y → averaged radiance`; the row-major tile loop and the byte
conversion follow the source. -/
noncomputable def render_tile (pixel : ℕ → ℕ → Vec3) (t : Tile) : List ℕ :=
  ((List.range (t.max_y - t.min_y)).map fun j =>
    ((List.range (t.max_x - t.min_x)).map fun i =>
      pixelBytes (pixel (t.min_x + i) (t.min_y + j))).flatten).flatten

/-- The tile list `render_scene` of src/main.rs spawns one worker for:
`Tile::new(0, i * tile_height, IMAGE_WIDTH, (i+1) * tile_height)` with
`tile_height = IMAGE_HEIGHT / num_threads` (integer division). -/
def sceneTiles (numThreads : ℕ) : List Tile :=
  (List.range numThreads).map fun i =>
    ⟨0, i * (IMAGE_HEIGHT / numThreads), IMAGE_WIDTH, (i + 1) * (IMAGE_HEIGHT / numThreads)⟩

/-- `render_scene` of src/main.rs: render every tile and concatenate the
tile buffers in tile order. -/
noncomputable def render_scene (pixel : ℕ → ℕ → Vec3) (numThreads : ℕ) : List ℕ :=
  ((sceneTiles numThreads).map (render_tile pixel)).flatten

/-- The tangent configuration for C5: unit sphere at the origin and the ray
from `(1,0,-2)` along `(0,0,1)`, which touches the sphere at `(1,0,0)`. -/
def tangentSphere : Sphere := ⟨⟨0, 0, 0⟩, 1, Material.Normal⟩

def tangentRay : Ray := ⟨⟨1, 0, -2⟩, ⟨0, 0, 1⟩⟩

/-- A camera with `lens_radius = 0` but a negative focal distance, built by
`look_at` from the eye `(0,0,0)` toward `(0,0,-1)` with a 90° field of view:
the focus point then lies behind the eye and the generated ray points away
from the viewport (C8). -/
noncomputable def badCam : PerspectiveCamera :=
  look_at ⟨0, 0, 0⟩ ⟨0, 0, -1⟩ ⟨0, 1, 0⟩ 90 1 (-1) 0

/-- The same camera with focal distance `+1` (C8's witness). -/
noncomputable def goodCam : PerspectiveCamera :=
  look_at ⟨0, 0, 0⟩ ⟨0, 0, -1⟩ ⟨0, 1, 0⟩ 90 1 1 0

/-- A direct camera configuration used to evaluate `generate_ray` (C10). -/
noncomputable def cam10 : PerspectiveCamera :=
  ⟨⟨0, 0, 0⟩, ⟨0, 0, 1⟩, ⟨0, 0, 0⟩, ⟨0, 0, 0⟩, 0, 0, 1, 0⟩

/-! ## Basic vector lemmas -/

theorem length_squared_nonneg (v : Vec3) : 0 ≤ length_squared v := by
  unfold length_squared dot
  nlinarith [sq_nonneg v.x, sq_nonneg v.y, sq_nonneg v.z]

theorem length_squared_eq_zero (v : Vec3) (h : length_squared v = 0) :
    v = ⟨0, 0, 0⟩ := by
  unfold length_squared dot at h
  have hx : v.x = 0 := by nlinarith [sq_nonneg v.x, sq_nonneg v.y, sq_nonneg v.z]
  have hy : v.y = 0 := by nlinarith [sq_nonneg v.x, sq_nonneg v.y, sq_nonneg v.z]
  have hz : v.z = 0 := by nlinarith [sq_nonneg v.x, sq_nonneg v.y, sq_nonneg v.z]
  ext <;> simp [hx, hy, hz]

/-! ## Sphere intersection (C3, C5) -/

theorem sphereA_pos_of_disc_pos (s : Sphere) (ray : Ray) (h : 0 < sphereDisc s ray) :
    0 < sphereA s ray := by
  rcases lt_or_eq_of_le (length_squared_nonneg ray.d) with ha | ha
  · exact ha
  · exfalso
    have hd : ray.d = ⟨0, 0, 0⟩ := length_squared_eq_zero ray.d ha.symm
    have hb : sphereB s ray = 0 := by
      unfold sphereB dot
      rw [hd]
      ring
    have haz : sphereA s ray = 0 := ha.symm
    unfold sphereDisc at h
    rw [hb, haz] at h
    linarith

/-- C3: for every sphere and ray, `Sphere::hit` reports no hit when the
discriminant is ≤ 0; when it is positive, `t1` is the smaller of the two
roots and the code accepts `t1` if positive, else falls back to `t2` if
positive, else reports no hit; and every returned hit has `t > 0`. -/
theorem sphere_hit_root_policy (s : Sphere) (ray : Ray) :
    (sphereDisc s ray ≤ 0 → Sphere.hit s ray = none) ∧
    (0 < sphereDisc s ray →
      sphereT1 s ray ≤ sphereT2 s ray ∧
      (0 < sphereT1 s ray →
        Sphere.hit s ray = some (sphereHitAt s ray (sphereT1 s ray))) ∧
      (sphereT1 s ray ≤ 0 → 0 < sphereT2 s ray →
        Sphere.hit s ray = some (sphereHitAt s ray (sphereT2 s ray))) ∧
      (sphereT2 s ray ≤ 0 → Sphere.hit s ray = none)) ∧
    (∀ h, Sphere.hit s ray = some h → 0 < h.t) := by
  refine ⟨fun hle => ?_, fun hpos => ?_, fun h hh => ?_⟩
  · unfold Sphere.hit
    rw [if_neg (not_lt.mpr hle)]
  · have ha := sphereA_pos_of_disc_pos s ray hpos
    have hs := Real.sqrt_nonneg (sphereDisc s ray)
    have ht12 : sphereT1 s ray ≤ sphereT2 s ray := by
      unfold sphereT1 sphereT2
      apply div_le_div_of_nonneg_right _ (by linarith)
      linarith
    refine ⟨ht12, fun h1 => ?_, fun h1 h2 => ?_, fun h2 => ?_⟩
    · unfold Sphere.hit
      rw [if_pos hpos, if_pos h1]
    · unfold Sphere.hit
      rw [if_pos hpos, if_neg (not_lt.mpr h1), if_pos h2]
    · unfold Sphere.hit
      rw [if_pos hpos, if_neg (not_lt.mpr (le_trans ht12 h2)), if_neg (not_lt.mpr h2)]
  · unfold Sphere.hit at hh
    by_cases hd : 0 < sphereDisc s ray
    · rw [if_pos hd] at hh
      by_cases h1 : 0 < sphereT1 s ray
      · rw [if_pos h1] at hh
        cases hh
        exact h1
      · rw [if_neg h1] at hh
        by_cases h2 : 0 < sphereT2 s ray
        · rw [if_pos h2] at hh
          cases hh
          exact h2
        · rw [if_neg h2] at hh
          cases hh
    · rw [if_neg hd] at hh
      cases hh

theorem tangent_disc_eq_zero : sphereDisc tangentSphere tangentRay = 0 := by
  unfold sphereDisc sphereA sphereB sphereC sphereOc tangentSphere tangentRay
  rw [Vec3.sub_def]
  unfold length_squared dot
  norm_num

/-- C5 counterexample: for the tangent ray the discriminant is exactly 0,
`quadratic` does report one root, yet `Sphere::hit` reports no hit (its test
is `discriminant > 0.0`), so a tangent ray does not yield an accepted root. -/
theorem tangent_ray_counterexample :
    sphereDisc tangentSphere tangentRay = 0 ∧
    Sphere.hit tangentSphere tangentRay = none ∧
    quadratic (sphereA tangentSphere tangentRay) (sphereB tangentSphere tangentRay)
      (sphereC tangentSphere tangentRay) = Roots.One 2 := by
  have hd := tangent_disc_eq_zero
  have ha : sphereA tangentSphere tangentRay = 1 := by
    unfold sphereA tangentRay length_squared dot
    norm_num
  have hb : sphereB tangentSphere tangentRay = -4 := by
    unfold sphereB sphereOc tangentSphere tangentRay
    rw [Vec3.sub_def]
    unfold dot
    norm_num
  have hc : sphereC tangentSphere tangentRay = 4 := by
    unfold sphereC sphereOc tangentSphere tangentRay
    rw [Vec3.sub_def]
    unfold length_squared dot
    norm_num
  refine ⟨hd, ?_, ?_⟩
  · unfold Sphere.hit
    rw [if_neg (by rw [hd]; exact lt_irrefl 0)]
  · unfold quadratic
    rw [ha, hb, hc]
    norm_num

/-- C5 amended: a ray exactly tangent to a sphere (discriminant = 0) yields
no hit — `Sphere::hit` demands a strictly positive discriminant — and a ray
missing the sphere entirely (discriminant < 0) also yields no hit. -/
theorem sphere_hit_nonpositive_disc (s : Sphere) (ray : Ray) :
    (sphereDisc s ray = 0 → Sphere.hit s ray = none) ∧
    (sphereDisc s ray < 0 → Sphere.hit s ray = none) := by
  constructor
  · intro h
    unfold Sphere.hit
    rw [if_neg (by rw [h]; exact lt_irrefl 0)]
  · intro h
    unfold Sphere.hit
    rw [if_neg (not_lt.mpr (le_of_lt h))]

/-! ## The integrator's depth cutoff (C1) -/

/-- C1: `trace` called with `depth ≥ MAX_DEPTH` returns exactly `(0,0,0)`
(and leaves the rng cursor untouched), for every scene, ray, rng stream,
fuel and cursor. -/
theorem trace_depth_cutoff (spheres : List Sphere) (rng : ℕ → ℝ) (fuel : ℕ)
    (ray : Ray) (pos depth : ℕ) (h : MAX_DEPTH ≤ depth) :
    trace spheres rng fuel ray pos depth = some (⟨0, 0, 0⟩, pos) := by
  rw [trace]
  rw [dif_pos h]

theorem trace_depth_cutoff_witness :
    MAX_DEPTH ≤ 8 ∧
    trace [] (fun _ => 0) 0 ⟨⟨0, 0, 0⟩, ⟨0, 0, 1⟩⟩ 0 8 = some (⟨0, 0, 0⟩, 0) :=
  ⟨by norm_num [MAX_DEPTH],
   trace_depth_cutoff [] (fun _ => 0) 0 ⟨⟨0, 0, 0⟩, ⟨0, 0, 1⟩⟩ 0 8 (by norm_num [MAX_DEPTH])⟩

/-! ## The background gradient on an upward ray (C4) -/

theorem normalize_up : normalize ⟨0, 1, 0⟩ = ⟨0, 1, 0⟩ := by
  unfold normalize length length_squared dot
  norm_num [Vec3.smul_def]

theorem background_up (o : Vec3) : background ⟨o, ⟨0, 1, 0⟩⟩ = ⟨0.5, 0.7, 0.9⟩ := by
  unfold background
  rw [show (Ray.mk o ⟨0, 1, 0⟩).d = ⟨0, 1, 0⟩ from rfl, normalize_up]
  norm_num

/-- C4 counterexample: on the empty scene, the ray with direction `(0,1,0)`
traced at depth 0 returns `(0.5, 0.7, 0.9)` — the `t = 1` endpoint of the
gradient — and not the color `(1,1,1)` the claim names (that is the `t = 0`,
downward endpoint). -/
theorem trace_up_ray_counterexample :
    trace [] (fun _ => 0) 0 ⟨⟨0, 0, 0⟩, ⟨0, 1, 0⟩⟩ 0 0 = some (⟨0.5, 0.7, 0.9⟩, 0) ∧
    Vec3.mk 0.5 0.7 0.9 ≠ ⟨1, 1, 1⟩ := by
  constructor
  · rw [trace, dif_neg (by norm_num [MAX_DEPTH])]
    show some (background _, 0) = _
    rw [background_up]
  · intro h
    have := congrArg Vec3.x h
    norm_num at this

/-- C4 amended: for the empty scene and any ray with direction `(0,1,0)`,
`trace` at any `depth < MAX_DEPTH` returns the background color
`(0.5, 0.7, 0.9)`: the interpolant `t = 0.5 * (1 + 1) = 1` fully selects the
"up" endpoint of the vertical gradient, whose color is `(0.5, 0.7, 0.9)`
(`(1,1,1)` is the `t = 0` endpoint). -/
theorem trace_up_ray (o : Vec3) (rng : ℕ → ℝ) (fuel pos depth : ℕ)
    (h : depth < MAX_DEPTH) :
    trace [] rng fuel ⟨o, ⟨0, 1, 0⟩⟩ pos depth = some (⟨0.5, 0.7, 0.9⟩, pos) := by
  rw [trace, dif_neg (not_le.mpr h)]
  show some (background _, pos) = _
  rw [background_up]

theorem trace_up_ray_witness :
    0 < MAX_DEPTH ∧
    trace [] (fun _ => 0) 0 ⟨⟨1, 2, 3⟩, ⟨0, 1, 0⟩⟩ 5 0 = some (⟨0.5, 0.7, 0.9⟩, 5) :=
  ⟨by norm_num [MAX_DEPTH],
   trace_up_ray ⟨1, 2, 3⟩ (fun _ => 0) 0 5 0 (by norm_num [MAX_DEPTH])⟩

/-! ## The scene's nearest-hit scan (C2) -/

theorem sceneHitStep_none (ray : Ray) (best : Option Hit) (s : Sphere)
    (hs : Sphere.hit s ray = none) : sceneHitStep ray best s = best := by
  unfold sceneHitStep
  rw [hs]

theorem sceneHitStep_first (ray : Ray) (s : Sphere) (h : Hit)
    (hs : Sphere.hit s ray = some h) : sceneHitStep ray none s = some h := by
  unfold sceneHitStep
  rw [hs]

theorem sceneHitStep_closer (ray : Ray) (s : Sphere) (h b : Hit)
    (hs : Sphere.hit s ray = some h) :
    sceneHitStep ray (some b) s = if h.t < b.t then some h else some b := by
  unfold sceneHitStep
  rw [hs]

theorem sceneHit_foldl_none (ray : Ray) (l : List Sphere) (best : Option Hit) :
    l.foldl (sceneHitStep ray) best = none ↔
      best = none ∧ ∀ s ∈ l, Sphere.hit s ray = none := by
  induction l generalizing best with
  | nil => simp [List.foldl]
  | cons s rest ih =>
    rw [List.foldl_cons, ih]
    constructor
    · rintro ⟨hstep, hrest⟩
      cases hs : Sphere.hit s ray with
      | none =>
        rw [sceneHitStep_none ray best s hs] at hstep
        refine ⟨hstep, fun s2 hs2 => ?_⟩
        rcases List.mem_cons.mp hs2 with rfl | hmem
        · exact hs
        · exact hrest s2 hmem
      | some h =>
        exfalso
        cases best with
        | none =>
          rw [sceneHitStep_first ray s h hs] at hstep
          exact Option.some_ne_none h hstep
        | some b =>
          rw [sceneHitStep_closer ray s h b hs] at hstep
          by_cases hlt : h.t < b.t
          · rw [if_pos hlt] at hstep
            exact Option.some_ne_none h hstep
          · rw [if_neg hlt] at hstep
            exact Option.some_ne_none b hstep
    · rintro ⟨rfl, hall⟩
      have hs := hall s (List.mem_cons_self s rest)
      exact ⟨sceneHitStep_none ray none s hs, fun s2 hs2 => hall s2 (List.mem_cons_of_mem s hs2)⟩

theorem sceneHit_foldl_mem (ray : Ray) (l : List Sphere) (best : Option Hit) (h : Hit)
    (hfold : l.foldl (sceneHitStep ray) best = some h) :
    best = some h ∨ ∃ s ∈ l, Sphere.hit s ray = some h := by
  induction l generalizing best with
  | nil => exact Or.inl hfold
  | cons s rest ih =>
    rw [List.foldl_cons] at hfold
    rcases ih (sceneHitStep ray best s) hfold with hstep | ⟨s2, hs2, hhit⟩
    · cases hs : Sphere.hit s ray with
      | none =>
        rw [sceneHitStep_none ray best s hs] at hstep
        exact Or.inl hstep
      | some h2 =>
        cases best with
        | none =>
          rw [sceneHitStep_first ray s h2 hs] at hstep
          cases hstep
          exact Or.inr ⟨s, List.mem_cons_self s rest, hs⟩
        | some b =>
          rw [sceneHitStep_closer ray s h2 b hs] at hstep
          by_cases hlt : h2.t < b.t
          · rw [if_pos hlt] at hstep
            cases hstep
            exact Or.inr ⟨s, List.mem_cons_self s rest, hs⟩
          · rw [if_neg hlt] at hstep
            exact Or.inl hstep
    · exact Or.inr ⟨s2, List.mem_cons_of_mem s hs2, hhit⟩

theorem sceneHit_foldl_min (ray : Ray) (l : List Sphere) (best : Option Hit) (h : Hit)
    (hfold : l.foldl (sceneHitStep ray) best = some h) :
    (∀ b, best = some b → h.t ≤ b.t) ∧
    (∀ s ∈ l, ∀ h2, Sphere.hit s ray = some h2 → h.t ≤ h2.t) := by
  induction l generalizing best with
  | nil =>
    refine ⟨fun b hb => ?_, fun s hs => absurd hs (List.not_mem_nil s)⟩
    rw [hb] at hfold
    cases hfold
    exact le_refl _
  | cons s rest ih =>
    rw [List.foldl_cons] at hfold
    obtain ⟨ihbest, ihrest⟩ := ih (sceneHitStep ray best s) hfold
    have hsteple : ∀ b2, sceneHitStep ray best s = some b2 → h.t ≤ b2.t := ihbest
    constructor
    · intro b hb
      subst hb
      cases hs : Sphere.hit s ray with
      | none => exact hsteple b (sceneHitStep_none ray (some b) s hs)
      | some h2 =>
        by_cases hlt : h2.t < b.t
        · have := hsteple h2 (by rw [sceneHitStep_closer ray s h2 b hs, if_pos hlt])
          linarith
        · exact hsteple b (by rw [sceneHitStep_closer ray s h2 b hs, if_neg hlt])
    · intro s2 hs2 h2 hhit
      rcases List.mem_cons.mp hs2 with rfl | hmem
      · cases best with
        | none => exact hsteple h2 (sceneHitStep_first ray s2 h2 hhit)
        | some b =>
          by_cases hlt : h2.t < b.t
          · exact hsteple h2 (by rw [sceneHitStep_closer ray s2 h2 b hhit, if_pos hlt])
          · have := hsteple b (by rw [sceneHitStep_closer ray s2 h2 b hhit, if_neg hlt])
            push_neg at hlt
            linarith
      · exact ihrest s2 hmem h2 hhit

theorem sceneHit_foldl_keep (ray : Ray) (l : List Sphere) (h : Hit)
    (hmin : ∀ s ∈ l, ∀ h2, Sphere.hit s ray = some h2 → ¬(h2.t < h.t)) :
    l.foldl (sceneHitStep ray) (some h) = some h := by
  induction l with
  | nil => rfl
  | cons s rest ih =>
    rw [List.foldl_cons]
    have hstep : sceneHitStep ray (some h) s = some h := by
      cases hs : Sphere.hit s ray with
      | none => exact sceneHitStep_none ray (some h) s hs
      | some h2 =>
        rw [sceneHitStep_closer ray s h2 h hs,
          if_neg (hmin s (List.mem_cons_self s rest) h2 hs)]
    rw [hstep]
    exact ih fun s2 hs2 => hmin s2 (List.mem_cons_of_mem s hs2)

/-- C2: `Scene::hit` tests every sphere in the list: it returns `none` iff no
sphere reports a hit; any returned hit is one of the spheres' hits and its
`t` is ≤ the `t` of every sphere's hit; and a hit whose `t` is strictly
smaller than that of every other sphere hit is the one returned. -/
theorem scene_hit_nearest (spheres : List Sphere) (ray : Ray) :
    (Scene.hit spheres ray = none ↔ ∀ s ∈ spheres, Sphere.hit s ray = none) ∧
    (∀ h, Scene.hit spheres ray = some h →
      (∃ s ∈ spheres, Sphere.hit s ray = some h) ∧
      ∀ s ∈ spheres, ∀ h2, Sphere.hit s ray = some h2 → h.t ≤ h2.t) ∧
    (∀ s ∈ spheres, ∀ h, Sphere.hit s ray = some h →
      (∀ s2 ∈ spheres, ∀ h2, Sphere.hit s2 ray = some h2 → h2 ≠ h → h.t < h2.t) →
      Scene.hit spheres ray = some h) := by
  refine ⟨?_, fun h hfold => ?_, fun s hmem h hhit hstrict => ?_⟩
  · unfold Scene.hit
    rw [sceneHit_foldl_none]
    simp
  · unfold Scene.hit at hfold
    refine ⟨?_, (sceneHit_foldl_min ray spheres none h hfold).2⟩
    rcases sceneHit_foldl_mem ray spheres none h hfold with hbad | hgood
    · cases hbad
    · exact hgood
  · obtain ⟨l1, l2, rfl⟩ := List.append_of_mem hmem
    unfold Scene.hit
    rw [List.foldl_append, List.foldl_cons]
    have hafter : sceneHitStep ray (l1.foldl (sceneHitStep ray) none) s = some h := by
      cases hb : l1.foldl (sceneHitStep ray) none with
      | none => exact sceneHitStep_first ray s h hhit
      | some b =>
        rcases sceneHit_foldl_mem ray l1 none b hb with hbad | ⟨s1, hs1, hhit1⟩
        · cases hbad
        · rw [sceneHitStep_closer ray s h b hhit]
          by_cases hbh : b = h
          · subst hbh
            rw [if_neg (lt_irrefl _)]
          · have hlt : h.t < b.t :=
              hstrict s1 (by simp [hs1]) b hhit1 hbh
            rw [if_pos hlt]
    rw [hafter]
    apply sceneHit_foldl_keep
    intro s2 hs2 h2 hhit2
    by_cases hh2 : h2 = h
    · subst hh2
      exact lt_irrefl h2.t
    · have := hstrict s2 (by simp [hs2]) h2 hhit2 hh2
      exact not_lt.mpr (le_of_lt this)

/-! ## Refraction (C7) -/

theorem normalize_down_z : normalize ⟨0, 0, -1⟩ = ⟨0, 0, -1⟩ := by
  unfold normalize length length_squared dot
  norm_num [Vec3.smul_def]

theorem refractCos_example : refractCos ⟨0, 0, -1⟩ ⟨0, 0, 2⟩ = 1 := by
  unfold refractCos
  rw [normalize_down_z]
  norm_num

/-- C7: `refract` returns `none` exactly when `ni_over_nt * sin_theta > 1`
(with `sin_theta` computed from the normalized incident direction), and
otherwise returns `some` of the refracted direction built by the formula —
which the function does not renormalize: on a concrete input the returned
vector does not have unit length. -/
theorem refract_tir_policy :
    (∀ v n : Vec3, ∀ r : ℝ,
      (refract v n r = none ↔ 1 < r * refractSin v n) ∧
      (r * refractSin v n ≤ 1 → refract v n r = some (refractOut v n r))) ∧
    (∃ w, refract ⟨0, 0, -1⟩ ⟨0, 0, 2⟩ 2 = some w ∧ length_squared w ≠ 1) := by
  constructor
  · intro v n r
    constructor
    · constructor
      · intro hnone
        by_cases hc : r * refractSin v n > 1
        · exact hc
        · unfold refract at hnone
          rw [if_neg hc] at hnone
          cases hnone
      · intro hc
        unfold refract
        rw [if_pos hc]
    · intro hle
      unfold refract
      rw [if_neg (not_lt.mpr hle)]
  · refine ⟨refractOut ⟨0, 0, -1⟩ ⟨0, 0, 2⟩ 2, ?_, ?_⟩
    · have hsin : refractSin ⟨0, 0, -1⟩ ⟨0, 0, 2⟩ = 0 := by
        unfold refractSin
        rw [refractCos_example]
        norm_num
      unfold refract
      rw [if_neg (by rw [hsin]; norm_num)]
    · have hout : refractOut ⟨0, 0, -1⟩ ⟨0, 0, 2⟩ 2 = ⟨0, 0, 2 - 2 * Real.sqrt 3⟩ := by
        simp only [refractOut, refractCos_example, normalize_down_z, length_squared, dot,
          Vec3.smul_def, Vec3.add_def, Vec3.mk.injEq]
        norm_num
        ring
      rw [hout]
      unfold length_squared dot
      intro heq
      norm_num at heq
      have h3 : Real.sqrt 3 ^ 2 = 3 := Real.sq_sqrt (by norm_num)
      nlinarith [Real.sqrt_nonneg 3]

/-! ## Tile partition and buffer length (C6) -/

theorem flatten_map_length {α : Type} (l : List α) (f : α → List ℕ) (k : ℕ)
    (hf : ∀ a ∈ l, (f a).length = k) :
    ((l.map f).flatten).length = l.length * k := by
  induction l with
  | nil => simp
  | cons a rest ih =>
    rw [List.map_cons, List.flatten_cons, List.length_append,
      ih fun b hb => hf b (List.mem_cons_of_mem a hb), hf a (List.mem_cons_self a rest),
      List.length_cons]
    ring

theorem render_tile_length (pixel : ℕ → ℕ → Vec3) (t : Tile) :
    (render_tile pixel t).length = (t.max_y - t.min_y) * (t.max_x - t.min_x) * 4 := by
  unfold render_tile
  rw [flatten_map_length (List.range (t.max_y - t.min_y))
    (fun j => ((List.range (t.max_x - t.min_x)).map fun i =>
      pixelBytes (pixel (t.min_x + i) (t.min_y + j))).flatten) ((t.max_x - t.min_x) * 4)
    fun j _ => by
      rw [flatten_map_length (List.range (t.max_x - t.min_x))
        (fun i => pixelBytes (pixel (t.min_x + i) (t.min_y + j))) 4 fun i _ => rfl,
        List.length_range]]
  rw [List.length_range]
  ring

theorem render_scene_length_eq (pixel : ℕ → ℕ → Vec3) (n : ℕ) :
    (render_scene pixel n).length = n * (IMAGE_HEIGHT / n) * IMAGE_WIDTH * 4 := by
  unfold render_scene
  rw [flatten_map_length (sceneTiles n) _ ((IMAGE_HEIGHT / n) * IMAGE_WIDTH * 4)
    fun t ht => ?_]
  · rw [show (sceneTiles n).length = n by
      unfold sceneTiles; rw [List.length_map, List.length_range]]
    ring
  · unfold sceneTiles at ht
    obtain ⟨i, _, rfl⟩ := List.mem_map.mp ht
    rw [render_tile_length]
    show ((i + 1) * (IMAGE_HEIGHT / n) - i * (IMAGE_HEIGHT / n)) * (IMAGE_WIDTH - 0) * 4 =
      IMAGE_HEIGHT / n * IMAGE_WIDTH * 4
    rw [Nat.succ_mul, Nat.add_sub_cancel_left, Nat.sub_zero]

/-- C6 counterexample: with 3 workers on the 512×512 image, the tile split
covers only `3 * (512 / 3) = 510` rows, so the concatenated buffer has
`3 * 170 * 512 * 4 = 1044480` bytes, not `512 * 512 * 4 = 1048576`: the last
tile does not absorb the remainder rows. -/
theorem render_scene_drops_rows :
    (render_scene (fun _ _ => ⟨0, 0, 0⟩) 3).length = 1044480 ∧
    (1044480 : ℕ) ≠ IMAGE_WIDTH * IMAGE_HEIGHT * 4 := by
  constructor
  · rw [render_scene_length_eq]
    norm_num [IMAGE_WIDTH, IMAGE_HEIGHT]
  · norm_num [IMAGE_WIDTH, IMAGE_HEIGHT]

/-- C6 amended: for every worker count `N` the scheduler partitions the
image into `N` horizontal tiles of equal height `IMAGE_HEIGHT / N` (integer
division) — the last tile does NOT absorb the remainder rows, which are
silently dropped — and the concatenated buffer has exactly
`N * (IMAGE_HEIGHT / N) * IMAGE_WIDTH * 4` bytes, which equals
`IMAGE_WIDTH * IMAGE_HEIGHT * 4` precisely in the evenly-divisible case. -/
theorem render_scene_partition (pixel : ℕ → ℕ → Vec3) (n : ℕ) :
    (∀ t ∈ sceneTiles n, t.min_x = 0 ∧ t.max_x = IMAGE_WIDTH ∧
      t.max_y - t.min_y = IMAGE_HEIGHT / n) ∧
    (render_scene pixel n).length = n * (IMAGE_HEIGHT / n) * IMAGE_WIDTH * 4 ∧
    (n ∣ IMAGE_HEIGHT → (render_scene pixel n).length = IMAGE_WIDTH * IMAGE_HEIGHT * 4) := by
  refine ⟨fun t ht => ?_, render_scene_length_eq pixel n, fun hdvd => ?_⟩
  · unfold sceneTiles at ht
    obtain ⟨i, _, rfl⟩ := List.mem_map.mp ht
    refine ⟨rfl, rfl, ?_⟩
    show (i + 1) * (IMAGE_HEIGHT / n) - i * (IMAGE_HEIGHT / n) = IMAGE_HEIGHT / n
    rw [Nat.succ_mul, Nat.add_sub_cancel_left]
  · rw [render_scene_length_eq, Nat.mul_div_cancel' hdvd]
    ring

/-! ## Byte conversion (C9) -/

theorem sqrt_four : Real.sqrt 4 = 2 := by
  rw [show (4 : ℝ) = 2 ^ 2 by norm_num, Real.sqrt_sq (by norm_num : (0:ℝ) ≤ 2)]

/-- C9 counterexample: for averaged radiance 4 the code's byte is the
saturating Rust cast `(255.99 * 2) as u8 = 255`, while the claim's formula
`round(255.99 * sqrt(4)) mod 256 = 512 mod 256 = 0`: the conversion neither
rounds nor wraps around. -/
theorem byte_conversion_counterexample :
    byteOfChannel 4 = 255 ∧ specByteOfChannel 4 = 0 ∧ (255 : ℕ) ≠ 0 := by
  refine ⟨?_, ?_, by norm_num⟩
  · unfold byteOfChannel rustCastU8
    rw [sqrt_four]
    rw [show ⌊(255.99 * 2 : ℝ)⌋ = 511 by rw [Int.floor_eq_iff]; norm_num]
    rfl
  · unfold specByteOfChannel
    rw [sqrt_four]
    rw [show round (255.99 * 2 : ℝ) = 512 by rw [round_eq, Int.floor_eq_iff]; norm_num]
    rfl

/-- C9 amended: each output color byte is `255.99 * sqrt(averaged radiance)`
truncated toward zero and saturated into `[0, 255]` (Rust's `as u8` cast
semantics): below 256 the byte is the floor of the value, from 256 on it
saturates at 255 — there is no wraparound modulo 256 and no rounding. -/
theorem byte_conversion_saturates (c : ℝ) :
    byteOfChannel c ≤ 255 ∧
    (255.99 * Real.sqrt c < 256 → (byteOfChannel c : ℤ) = ⌊255.99 * Real.sqrt c⌋) ∧
    (256 ≤ 255.99 * Real.sqrt c → byteOfChannel c = 255) := by
  have hnn : (0 : ℝ) ≤ 255.99 * Real.sqrt c := by positivity
  have hfl : (0 : ℤ) ≤ ⌊(255.99 * Real.sqrt c : ℝ)⌋ := Int.floor_nonneg.mpr hnn
  refine ⟨?_, fun hlt => ?_, fun hge => ?_⟩
  · unfold byteOfChannel rustCastU8
    exact Int.toNat_le.mpr (min_le_left _ _)
  · have hle : ⌊(255.99 * Real.sqrt c : ℝ)⌋ ≤ 255 := by
      have : ⌊(255.99 * Real.sqrt c : ℝ)⌋ < 256 := Int.floor_lt.mpr (by exact_mod_cast hlt)
      omega
    unfold byteOfChannel rustCastU8
    rw [min_eq_right hle]
    exact Int.toNat_of_nonneg hfl
  · have h256 : (256 : ℤ) ≤ ⌊(255.99 * Real.sqrt c : ℝ)⌋ :=
      Int.le_floor.mpr (by exact_mod_cast hge)
    unfold byteOfChannel rustCastU8
    rw [min_eq_left (by omega)]
    rfl

/-! ## Camera ray generation (C8, C10) -/

theorem Vec3.one_smul_vec (v : Vec3) : (1 : ℝ) • v = v := by
  ext <;> simp [Vec3.smul_def]

theorem Vec3.zero_smul_vec (v : Vec3) : (0 : ℝ) • v = ⟨0, 0, 0⟩ := by
  ext <;> simp [Vec3.smul_def]

theorem Vec3.add_zero_vec (v : Vec3) : v + ⟨0, 0, 0⟩ = v := by
  ext <;> simp [Vec3.add_def]

theorem Vec3.smul_smul_vec (a b : ℝ) (v : Vec3) : a • (b • v) = (a * b) • v := by
  ext <;> simp [Vec3.smul_def] <;> ring

theorem length_squared_smul (c : ℝ) (v : Vec3) :
    length_squared (c • v) = c ^ 2 * length_squared v := by
  simp only [length_squared, dot, Vec3.smul_def]
  ring

theorem length_smul (c : ℝ) (v : Vec3) : length (c • v) = |c| * length v := by
  unfold length
  rw [length_squared_smul, Real.sqrt_mul (sq_nonneg c), Real.sqrt_sq_eq_abs]

theorem length_eq_zero_iff (v : Vec3) : length v = 0 ↔ v = ⟨0, 0, 0⟩ := by
  unfold length
  rw [Real.sqrt_eq_zero']
  constructor
  · intro hle
    exact length_squared_eq_zero v (le_antisymm hle (length_squared_nonneg v))
  · rintro rfl
    simp [length_squared, dot]

theorem normalize_zero : normalize ⟨0, 0, 0⟩ = ⟨0, 0, 0⟩ := by
  unfold normalize
  ext <;> simp [Vec3.smul_def]

theorem length_normalize (v : Vec3) (hv : length v ≠ 0) : length (normalize v) = 1 := by
  have hpos : 0 < length v := lt_of_le_of_ne (Real.sqrt_nonneg _) (Ne.symm hv)
  unfold normalize
  rw [length_smul, abs_of_pos (by positivity)]
  field_simp

theorem normalize_idem (v : Vec3) : normalize (normalize v) = normalize v := by
  by_cases hv : length v = 0
  · rw [(length_eq_zero_iff v).mp hv, normalize_zero, normalize_zero]
  · show (1 / length (normalize v)) • normalize v = normalize v
    rw [length_normalize v hv, show (1 / 1 : ℝ) = 1 by norm_num, Vec3.one_smul_vec]

theorem normalize_smul_pos (c : ℝ) (hc : 0 < c) (v : Vec3) :
    normalize (c • v) = normalize v := by
  by_cases hv : length v = 0
  · rw [(length_eq_zero_iff v).mp hv,
      show c • (⟨0, 0, 0⟩ : Vec3) = ⟨0, 0, 0⟩ by ext <;> simp [Vec3.smul_def]]
  · show (1 / length (c • v)) • (c • v) = normalize v
    rw [length_smul, abs_of_pos hc, Vec3.smul_smul_vec]
    unfold normalize
    congr 1
    field_simp

theorem point_at_sub (o d : Vec3) (f : ℝ) : Ray.point_at ⟨o, d⟩ f - o = f • d := by
  unfold Ray.point_at
  ext <;> simp [Vec3.sub_def, Vec3.smul_def]

/-- With a zero lens radius the lens perturbation vanishes: whatever the rng
produced, the returned ray is the one toward the focus point from the
unperturbed origin. -/
theorem generate_ray_lens_zero (cam : PerspectiveCamera) (u v : ℝ)
    (h0 : cam.lens_radius = 0) (rng : ℕ → ℝ) (fuel pos : ℕ) (r : Ray) (q : ℕ)
    (h : generate_ray cam u v rng fuel pos = some (r, q)) :
    r = ⟨cam.origin, normalize (Ray.point_at ⟨cam.origin, (pinholeRay cam u v).d⟩
      cam.focal_distance - cam.origin)⟩ := by
  unfold generate_ray at h
  cases hd : sampleDisk rng fuel pos with
  | none =>
    rw [hd] at h
    cases h
  | some res =>
    obtain ⟨du, dv, q1⟩ := res
    rw [hd] at h
    simp only [Option.some.injEq, Prod.mk.injEq] at h
    obtain ⟨hr, -⟩ := h
    rw [← hr, h0]
    have hz : ∀ s : ℝ, ∀ w : Vec3, (s * 0) • w = (⟨0, 0, 0⟩ : Vec3) := fun s w => by
      rw [mul_zero]
      exact Vec3.zero_smul_vec w
    rw [hz du cam.u_axis, hz dv cam.v_axis, Vec3.add_zero_vec, Vec3.add_zero_vec]
    rfl

/-- C8 amended: for a camera with `lens_radius = 0`, `generate_ray` is
deterministic — any two rng streams that let the lens loop accept produce
the same ray — and, provided `focal_distance > 0`, that ray is the
pinhole-camera ray for the same `(u, v)`. (For `focal_distance ≤ 0` the
second part fails: the direction is recomputed toward the focus point, which
then lies at or behind the eye.) -/
theorem generate_ray_pinhole (cam : PerspectiveCamera) (u v : ℝ)
    (h0 : cam.lens_radius = 0) :
    (∀ rng1 fuel1 pos1 rng2 fuel2 pos2 r1 q1 r2 q2,
      generate_ray cam u v rng1 fuel1 pos1 = some (r1, q1) →
      generate_ray cam u v rng2 fuel2 pos2 = some (r2, q2) → r1 = r2) ∧
    (0 < cam.focal_distance → ∀ rng fuel pos r q,
      generate_ray cam u v rng fuel pos = some (r, q) → r = pinholeRay cam u v) := by
  constructor
  · intro rng1 fuel1 pos1 rng2 fuel2 pos2 r1 q1 r2 q2 h1 h2
    rw [generate_ray_lens_zero cam u v h0 rng1 fuel1 pos1 r1 q1 h1,
      generate_ray_lens_zero cam u v h0 rng2 fuel2 pos2 r2 q2 h2]
  · intro hf rng fuel pos r q h
    rw [generate_ray_lens_zero cam u v h0 rng fuel pos r q h]
    rw [point_at_sub, normalize_smul_pos cam.focal_distance hf]
    rw [show (pinholeRay cam u v).d = normalize (cam.target
      + (u * cam.viewport_width) • cam.u_axis
      + (v * cam.viewport_height) • cam.v_axis - cam.origin) from rfl]
    rw [normalize_idem]
    rfl

theorem generate_ray_pinhole_witness :
    goodCam.lens_radius = 0 ∧
    (0 < goodCam.focal_distance → ∀ rng fuel pos r q,
      generate_ray goodCam 0 0 rng fuel pos = some (r, q) → r = pinholeRay goodCam 0 0) :=
  ⟨rfl, (generate_ray_pinhole goodCam 0 0 rfl).2⟩

theorem look_at_example_fields (f : ℝ) :
    look_at ⟨0, 0, 0⟩ ⟨0, 0, -1⟩ ⟨0, 1, 0⟩ 90 1 f 0 =
      ⟨⟨0, 0, 0⟩, ⟨0, 0, -1⟩, ⟨-1, 0, 0⟩, ⟨0, 1, 0⟩, 2, 2, f, 0⟩ := by
  have hsub : (⟨0, 0, -1⟩ : Vec3) - ⟨0, 0, 0⟩ = ⟨0, 0, -1⟩ := by
    rw [Vec3.sub_def]
    norm_num
  have hlen : length ⟨0, 0, -1⟩ = 1 := by
    unfold length length_squared dot
    norm_num
  have hcross1 : cross ⟨0, 1, 0⟩ ⟨0, 0, -1⟩ = ⟨-1, 0, 0⟩ := by
    unfold cross
    norm_num
  have hnormu : normalize ⟨-1, 0, 0⟩ = ⟨-1, 0, 0⟩ := by
    unfold normalize length length_squared dot
    norm_num [Vec3.smul_def]
  have hcross2 : cross ⟨0, 0, -1⟩ ⟨-1, 0, 0⟩ = ⟨0, 1, 0⟩ := by
    unfold cross
    norm_num
  have htan : Real.tan (0.5 * ((90 : ℝ) / 180 * Real.pi)) = 1 := by
    rw [show (0.5 : ℝ) * (90 / 180 * Real.pi) = Real.pi / 4 by ring]
    exact Real.tan_pi_div_four
  simp only [look_at]
  rw [hsub, normalize_down_z, hcross1, hnormu, hcross2, htan, hlen]
  norm_num

theorem sampleDisk_zero_eval : sampleDisk (fun _ => 0) 1 0 = some (0, 0, 2) := by
  unfold sampleDisk
  norm_num

theorem normalize_unit_z : normalize ⟨0, 0, 1⟩ = ⟨0, 0, 1⟩ := by
  unfold normalize length length_squared dot
  norm_num [Vec3.smul_def]

/-- C8 counterexample: `badCam` is built by `look_at` with `lens_radius = 0`
and `focal_distance = -1`; `generate_ray` at `(0,0)` returns the ray with
direction `(0,0,1)`, while the pinhole ray for the same `(u,v)` has
direction `(0,0,-1)` — with a non-positive focal distance the generated ray
is not the pinhole ray, so the claim as stated fails. -/
theorem generate_ray_negative_focal_counterexample :
    badCam.lens_radius = 0 ∧
    generate_ray badCam 0 0 (fun _ => 0) 1 0 = some (⟨⟨0, 0, 0⟩, ⟨0, 0, 1⟩⟩, 2) ∧
    pinholeRay badCam 0 0 = ⟨⟨0, 0, 0⟩, ⟨0, 0, -1⟩⟩ ∧
    (⟨⟨0, 0, 0⟩, ⟨0, 0, 1⟩⟩ : Ray) ≠ ⟨⟨0, 0, 0⟩, ⟨0, 0, -1⟩⟩ := by
  refine ⟨rfl, ?_, ?_, ?_⟩
  · rw [show badCam = ⟨⟨0, 0, 0⟩, ⟨0, 0, -1⟩, ⟨-1, 0, 0⟩, ⟨0, 1, 0⟩, 2, 2, -1, 0⟩ by
      unfold badCam; exact look_at_example_fields (-1)]
    simp only [generate_ray, sampleDisk_zero_eval]
    norm_num [Vec3.add_def, Vec3.smul_def, Vec3.sub_def, Ray.point_at,
      normalize_down_z, normalize_unit_z, Prod.mk.injEq, Ray.mk.injEq, Vec3.mk.injEq]
  · rw [show badCam = ⟨⟨0, 0, 0⟩, ⟨0, 0, -1⟩, ⟨-1, 0, 0⟩, ⟨0, 1, 0⟩, 2, 2, -1, 0⟩ by
      unfold badCam; exact look_at_example_fields (-1)]
    simp only [pinholeRay]
    norm_num [Vec3.add_def, Vec3.smul_def, Vec3.sub_def,
      normalize_down_z, Ray.mk.injEq, Vec3.mk.injEq]
  · intro h
    have := congrArg (fun r : Ray => r.d.z) h
    norm_num at this

theorem sampleDisk_consumes (rng : ℕ → ℝ) (fuel pos : ℕ) (du dv : ℝ) (q : ℕ)
    (h : sampleDisk rng fuel pos = some (du, dv, q)) : pos + 2 ≤ q := by
  induction fuel generalizing pos with
  | zero => cases h
  | succ n ih =>
    unfold sampleDisk at h
    by_cases hc : rng pos * rng pos + rng (pos + 1) * rng (pos + 1) < 1
    · rw [if_pos hc] at h
      simp only [Option.some.injEq, Prod.mk.injEq] at h
      omega
    · rw [if_neg hc] at h
      have := ih (pos + 2) h
      omega

/-- C10: every successful call of `generate_ray` consumes at least one pair
of rng draws (the lens rejection loop runs unconditionally, two draws per
iteration), so the rng cursor advances by at least 2 even when
`lens_radius = 0`. -/
theorem generate_ray_consumes_rng (cam : PerspectiveCamera) (u v : ℝ) (rng : ℕ → ℝ)
    (fuel pos : ℕ) (r : Ray) (q : ℕ)
    (h : generate_ray cam u v rng fuel pos = some (r, q)) : pos + 2 ≤ q := by
  unfold generate_ray at h
  cases hd : sampleDisk rng fuel pos with
  | none =>
    rw [hd] at h
    cases h
  | some res =>
    obtain ⟨du, dv, q1⟩ := res
    rw [hd] at h
    simp only [Option.some.injEq, Prod.mk.injEq] at h
    obtain ⟨-, hq⟩ := h
    rw [← hq]
    exact sampleDisk_consumes rng fuel pos du dv q1 hd

theorem cam10_eval :
    generate_ray cam10 0 0 (fun _ => 0) 1 0 = some (⟨⟨0, 0, 0⟩, ⟨0, 0, 1⟩⟩, 2) := by
  unfold cam10
  simp only [generate_ray, sampleDisk_zero_eval]
  norm_num [Vec3.add_def, Vec3.smul_def, Vec3.sub_def, Ray.point_at,
    normalize_unit_z, Prod.mk.injEq, Ray.mk.injEq, Vec3.mk.injEq]

theorem generate_ray_consumes_rng_witness :
    generate_ray cam10 0 0 (fun _ => 0) 1 0 = some (⟨⟨0, 0, 0⟩, ⟨0, 0, 1⟩⟩, 2) ∧
    0 + 2 ≤ 2 :=
  ⟨cam10_eval,
   generate_ray_consumes_rng cam10 0 0 (fun _ => 0) 1 0 ⟨⟨0, 0, 0⟩, ⟨0, 0, 1⟩⟩ 2 cam10_eval⟩

end RPT
